import Mathlib

/-!
Verification of the price-resolution core of the Financial-Scope repository.

The embedding covers:
* `src/src/lib/finance-api.ts` — the snippet price extractor
  (`getPriceViaWebSearch`), its regex scans over the combined snippet text,
  and the static `PRICE_RANGES` table;
* `src/src/app/api/market/prices/route.ts` — the `GET` resolver pipeline:
  symbol normalization, price validation against `DEFAULT_PRICES`, the
  per-item persistence loop, the cache fallback and the default fallback,
  and the final required-symbol fill loop.

JavaScript numbers are modelled as exact rationals.  Because `Rat`
normalization does not reduce in the kernel, numbers are carried in a raw
fraction type `QQ` (integer numerator, positive denominator, never reduced);
value-level equality and order are decided by cross multiplication, and a
semantics map `toRat : QQ → ℚ` with homomorphism lemmas is used for the
order-theoretic theorems.  All arithmetic performed by the modelled code
(sums, products by decimal constants, halving) is exact on binary floats at
the scales involved or differs from the exact value only below any bound the
claims depend on, so the exact-rational model is faithful for every claim
settled here.
-/

namespace FinScope

set_option maxRecDepth 10000

set_option maxHeartbeats 1000000

/-- Raw fraction: JavaScript number `num / den`.  The denominator is a
positive natural, so every `QQ` denotes a genuine rational and no
well-founded normalization is ever needed. -/
structure QQ where
  num : Int
  den : ℕ+
deriving DecidableEq

/-- Integer as a `QQ`. -/
def qInt (n : Int) : QQ := ⟨n, 1⟩

/-- Fraction literal `n / d`. -/
def qq (n : Int) (d : ℕ+) : QQ := ⟨n, d⟩

def qZero : QQ := ⟨0, 1⟩

def qAdd (a b : QQ) : QQ := ⟨a.num * (b.den : ℕ) + b.num * (a.den : ℕ), a.den * b.den⟩

def qSub (a b : QQ) : QQ := ⟨a.num * (b.den : ℕ) - b.num * (a.den : ℕ), a.den * b.den⟩

def qMul (a b : QQ) : QQ := ⟨a.num * b.num, a.den * b.den⟩

def qAbs (a : QQ) : QQ := ⟨|a.num|, a.den⟩

/-- Value equality (`===` on JS numbers), by cross multiplication. -/
def qEq (a b : QQ) : Bool := a.num * (b.den : ℕ) = b.num * (a.den : ℕ)

/-- Value order `a <= b`, by cross multiplication. -/
def qLe (a b : QQ) : Bool := a.num * (b.den : ℕ) ≤ b.num * (a.den : ℕ)

/-- Value order `a < b`, by cross multiplication. -/
def qLt (a b : QQ) : Bool := a.num * (b.den : ℕ) < b.num * (a.den : ℕ)

/-- Semantics of a raw fraction as a rational number. -/
def toRat (a : QQ) : ℚ := (a.num : ℚ) / ((a.den : ℕ) : ℚ)

/-! ## Text scanning

Faithful models of the regular-expression scans performed by
`getPriceViaWebSearch` in `src/src/lib/finance-api.ts`:

* `scanNums`    — `combinedText.match(/\$?([\d,]+\.?\d{0,2})/g)`;
* `findLabel`   — `combinedText.match(/high[\s:]*\$?([\d,]+\.?\d*)/i)` and the
                  analogous `low` scan, returning capture group 1;
* `findChange`  — `combinedText.match(/([+-]?[\d.]+)%/)`, capture group 1.

Text is a `List Char`.  Each scan advances one character at a time and, at
each position, attempts a deterministic greedy match.  For these particular
patterns greedy matching with no backtracking is exact, because every
character class is disjoint from the literal that follows it ( `[\s:]`, `$`
and `[\d,]` are pairwise disjoint, and `%` is not in `[\d.]` ), so the
leftmost JavaScript match is exactly what these functions return.
-/

/-- A `[\d,]` character. -/
def isDC (c : Char) : Bool := c.isDigit || c = ','

/-- A `[\d.]` character (used by the percent pattern). -/
def isDigitDot (c : Char) : Bool := c.isDigit || c = '.'

/-- A `[\s:]` character (the whitespace forms that can occur in snippet
text, plus the colon). -/
def isSpaceColon (c : Char) : Bool :=
  c = ' ' || c = '\t' || c = '\n' || c = '\r' || c = Char.ofNat 11 || c = Char.ofNat 12 || c = ':'

/-- Greedy match of `[\d,]+\.?\d{0,2}` at the head of `l` (the head is
assumed to be a `[\d,]` character): the token and the remaining text. -/
def numToken (l : List Char) : List Char × List Char :=
  let run := l.takeWhile isDC
  let r := l.drop run.length
  match r with
  | '.' :: r2 =>
      let ds := (r2.takeWhile Char.isDigit).take 2
      (run ++ '.' :: ds, r2.drop ds.length)
  | _ => (run, r)

/-- Attempt `\$?([\d,]+\.?\d{0,2})` at the current position, returning the
whole match (with the `$`, as `String.match` with the `g` flag returns whole
matches) and the rest of the text. -/
def matchNumAt : List Char → Option (List Char × List Char)
  | [] => none
  | c :: t =>
      if c = '$' then
        match t with
        | c2 :: _ =>
            if isDC c2 then
              let p := numToken t
              some ('$' :: p.1, p.2)
            else none
        | [] => none
      else if isDC c then some (numToken (c :: t)) else none

/-- Global scan for `\$?([\d,]+\.?\d{0,2})`, fuelled by the text length.
Every step consumes at least one character (a successful match has a
non-empty token), so fuel `l.length` always suffices. -/
def scanNumsF : Nat → List Char → List (List Char)
  | 0, _ => []
  | _ + 1, [] => []
  | fuel + 1, c :: t =>
      match matchNumAt (c :: t) with
      | some p => p.1 :: scanNumsF fuel p.2
      | none => scanNumsF fuel t

/-- All matches of `/\$?([\d,]+\.?\d{0,2})/g` in the text. -/
def scanNums (l : List Char) : List (List Char) := scanNumsF l.length l

/-- Case-insensitively consume the (lowercase) label at the head of the
text, returning the rest. -/
def dropCI : List Char → List Char → Option (List Char)
  | [], l => some l
  | _ :: _, [] => none
  | p :: ps, c :: cs => if Char.toLower c = p then dropCI ps cs else none

/-- The number phase of a labelled match, applied after the optional `$`:
requires `[\d,]+`, then takes an optional `.` with a greedy `\d*`; it
returns capture group 1. -/
def labelTail (r2 : List Char) : Option (List Char) :=
  match r2 with
  | c :: _ =>
      if isDC c then
        let run := r2.takeWhile isDC
        let r3 := r2.drop run.length
        some (run ++ (match r3 with
          | '.' :: r4 => '.' :: r4.takeWhile Char.isDigit
          | _ => []))
      else none
  | [] => none

/-- Attempt `label[\s:]*\$?([\d,]+\.?\d*)` (case-insensitive) at the current
position, returning capture group 1. -/
def tryLabelAt (label : List Char) (l : List Char) : Option (List Char) :=
  match dropCI label l with
  | none => none
  | some r =>
      let r1 := r.dropWhile isSpaceColon
      let r2 := match r1 with
        | c :: t => if c = '$' then t else c :: t
        | [] => r1
      labelTail r2

/-- First match of `label[\s:]*\$?([\d,]+\.?\d*)` (case-insensitive),
capture group 1. -/
def findLabel (label : List Char) : List Char → Option (List Char)
  | [] => none
  | c :: t =>
      match tryLabelAt label (c :: t) with
      | some g => some g
      | none => findLabel label t

def highLabel : List Char := ['h', 'i', 'g', 'h']

def lowLabel : List Char := ['l', 'o', 'w']

/-- Attempt `([+-]?[\d.]+)%` at the current position, returning capture
group 1.  When a sign is present but not followed by a `[\d.]` run ending at
`%`, the engine backtracks to the empty sign and then fails, because a sign
character is not in `[\d.]`. -/
def tryChangeAt : List Char → Option (List Char)
  | [] => none
  | c :: t =>
      if c = '+' || c = '-' then
        let run := t.takeWhile isDigitDot
        if run.isEmpty then none
        else
          match t.drop run.length with
          | c2 :: _ => if c2 = '%' then some (c :: run) else none
          | [] => none
      else
        let run := (c :: t).takeWhile isDigitDot
        if run.isEmpty then none
        else
          match (c :: t).drop run.length with
          | c2 :: _ => if c2 = '%' then some run else none
          | [] => none

/-- First match of `/([+-]?[\d.]+)%/`, capture group 1. -/
def findChange : List Char → Option (List Char)
  | [] => none
  | c :: t =>
      match tryChangeAt (c :: t) with
      | some g => some g
      | none => findChange t

/-! ## Number parsing

`parseFloat` as applied by the extractor.  Its inputs here are always the
matched tokens above, stripped of `$` and `,` — that is, strings consisting
of an optional sign, digits and dots.  On that domain `parseFloat` reads an
optional sign, an integer digit run, and at most one fraction digit run
after a first dot, ignores everything after, and yields `NaN` (modelled as
`none`) when no digit was read before it stopped. -/

def digitsToNat (l : List Char) : Nat :=
  l.foldl (fun a c => 10 * a + (c.toNat - '0'.toNat)) 0

/-- The power `10 ^ k` as a positive natural. -/
def pow10 (k : Nat) : ℕ+ := ⟨10 ^ k, Nat.pos_pow_of_pos k (by decide)⟩

/-- Model of `parseFloat` on sign/digit/dot strings; `none` models `NaN`. -/
def parseFloatJS (l : List Char) : Option QQ :=
  let sr : Int × List Char :=
    match l with
    | c :: t => if c = '-' then (-1, t) else if c = '+' then (1, t) else (1, c :: t)
    | [] => (1, l)
  let d1 := sr.2.takeWhile Char.isDigit
  let r2 := sr.2.drop d1.length
  match r2 with
  | '.' :: r3 =>
      let d2 := r3.takeWhile Char.isDigit
      if d1.isEmpty && d2.isEmpty then none
      else some ⟨sr.1 * (digitsToNat d1 * 10 ^ d2.length + digitsToNat d2), pow10 d2.length⟩
  | _ => if d1.isEmpty then none else some ⟨sr.1 * digitsToNat d1, 1⟩

/-- Strip `$` and `,` — `numStr.replace(/[$,]/g, '')`. -/
def stripDollarComma (l : List Char) : List Char :=
  l.filter (fun c => !(c = '$' || c = ','))

/-- Strip `,` — `s.replace(/,/g, '')`. -/
def stripComma (l : List Char) : List Char :=
  l.filter (fun c => !(c = ','))

/-! ## The snippet price extractor — `src/src/lib/finance-api.ts` -/

/-- One entry of the ranges table: `min`, `max` and `unit`. -/
structure PriceRange where
  min : QQ
  max : QQ
  unit : String
deriving DecidableEq

/-- The `PRICE_RANGES` table — known price ranges for validation (finance-api.ts,
lines 40–47). -/
def PRICE_RANGES : List (String × PriceRange) :=
  [("BTC-USD", ⟨qInt 50000, qInt 150000, "USD"⟩),
   ("ETH-USD", ⟨qInt 1000, qInt 5000, "USD"⟩),
   ("^GSPC", ⟨qInt 4000, qInt 7000, "points"⟩),
   ("GC=F", ⟨qInt 1500, qInt 3500, "USD/oz"⟩),
   ("SI=F", ⟨qInt 15, qInt 50, "USD/oz"⟩),
   ("KZT=X", ⟨qInt 400, qInt 600, "KZT"⟩)]

/-- Lookup of the configured range for a symbol.  For symbols not in the table the source
substitutes `{ min: 0, max: Infinity, unit: 'USD' }`; no claim concerns an
unconfigured symbol, so the infinite default stays outside the embedding and
the extractor below takes the configured range it is invoked with. -/
def rangeFor (symbol : String) : Option PriceRange := PRICE_RANGES.lookup symbol

/-- The range midpoint `(range.min + range.max) / 2`. -/
def qMid (range : PriceRange) : QQ := qMul (qAdd range.min range.max) (qq 1 2)

/-- The parsed in-range price candidates, in text order: each match of the
number pattern, stripped of `$` and `,`, parsed, dropped when `NaN`
(`!isNaN(num)`) or outside `[range.min, range.max]` (inclusive). -/
def candidates (text : List Char) (range : PriceRange) : List QQ :=
  ((scanNums text).filterMap (fun tok => parseFloatJS (stripDollarComma tok))).filter
    (fun n => qLe range.min n && qLe n range.max)

/-- The candidate-selection loop (finance-api.ts lines 99–106): `price`
starts at `0` and each candidate replaces it when `price === 0` or when it
is strictly closer to the range midpoint. -/
def pickStep (mid acc n : QQ) : QQ :=
  if qEq acc qZero || qLt (qAbs (qSub n mid)) (qAbs (qSub acc mid)) then n else acc

def pickPrice (mid : QQ) (cands : List QQ) : QQ :=
  cands.foldl (pickStep mid) qZero

/-- Extraction result: `{ price, high, low, changePercent }`.
`changePercent = none` models `NaN`, which the source can produce because
the percent capture is parsed without an `isNaN` guard. -/
structure Extracted where
  price : QQ
  high : QQ
  low : QQ
  changePercent : Option QQ
deriving DecidableEq

/-- The resolved `price` (finance-api.ts lines 93–111): the candidate
loop's result, or the range midpoint when it is still `0`. -/
def resolvedPrice (text : List Char) (range : PriceRange) : QQ :=
  let p0 := pickPrice (qMid range) (candidates text range)
  if qEq p0 qZero then qMid range else p0

/-- The `high` value (lines 113–126): the labelled match, accepted only
when strictly above the resolved price (`h > price`); `high` stays `0`
otherwise, and a falsy `high` (`!high`) is synthesized as `price * 1.01`. -/
def resolvedHigh (text : List Char) (range : PriceRange) : QQ :=
  let price := resolvedPrice text range
  let high0 : QQ :=
    match (findLabel highLabel text).bind (fun g => parseFloatJS (stripComma g)) with
    | some h => if qLt price h then h else qZero
    | none => qZero
  if qEq high0 qZero then qMul price (qq 101 100) else high0

/-- The `low` value (lines 115–127): the labelled match, accepted only
when strictly below the resolved price (`l < price`); a falsy `low` is
synthesized as `price * 0.99`. -/
def resolvedLow (text : List Char) (range : PriceRange) : QQ :=
  let price := resolvedPrice text range
  let low0 : QQ :=
    match (findLabel lowLabel text).bind (fun g => parseFloatJS (stripComma g)) with
    | some v => if qLt v price then v else qZero
    | none => qZero
  if qEq low0 qZero then qMul price (qq 99 100) else low0

/-- The `changePercent` value (lines 129–133): the first percent match,
parsed without an `isNaN` guard (so a digit-free capture such as `.` yields
`NaN`, modelled `none`); `0` when there is no match. -/
def resolvedChange (text : List Char) : Option QQ :=
  match findChange text with
  | some g => parseFloatJS g
  | none => some qZero

/-- The heuristic extraction over the combined snippet text
(finance-api.ts lines 85–144). -/
def extractCore (text : List Char) (range : PriceRange) : Extracted :=
  ⟨resolvedPrice text range, resolvedHigh text range, resolvedLow text range,
   resolvedChange text⟩

/-- A web-search result as consumed by the extractor (`r.name` and
`r.snippet`; the other fields of the search payload are unused there). -/
structure SearchResult where
  name : String
  snippet : String
deriving DecidableEq

/-- The combined snippet text, joining every result name and snippet with single spaces. -/
def combineText (results : List SearchResult) : List Char :=
  (String.intercalate " " (results.map (fun r => r.name ++ " " ++ r.snippet))).toList

/-- The quote record returned by the finance-api module. -/
structure QuoteResponse where
  ticker : String
  name : String
  price : QQ
  change : QQ
  changePercent : Option QQ
  high : QQ
  low : QQ
  open24 : QQ
  volume : QQ
deriving DecidableEq

/-- Model of `getPriceViaWebSearch` (finance-api.ts lines 75–151), as a function of
the search results it received: with an empty result list the guard
`results && results.length > 0` fails and the function returns `null`
(`none`); otherwise it builds a quote from the extraction, with
`change = 0`, `open = price` and `volume = 0`.  The `range` argument is the
configured `PRICE_RANGES[symbol]` (see `rangeFor`). -/
def getPriceViaWebSearch (symbol displayName : String) (range : PriceRange)
    (results : List SearchResult) : Option QuoteResponse :=
  if results.isEmpty then none
  else
    let e := extractCore (combineText results) range
    some ⟨symbol, displayName, e.price, qZero, e.changePercent, e.high, e.low, e.price, qZero⟩

/-! ## The resolver pipeline — `src/src/app/api/market/prices/route.ts`

The `GET` handler, as a pure function of
* the outcome of the live stage — `none` when `getSnapshots` (raced against
  the 20 s timeout) threw, `some items` when it returned a list (possibly
  empty, in which case the snapshot guard fails and the loop is skipped);
* the persisted `MarketPrice` store;
* the current time in milliseconds (`Date.now()`);
* a per-symbol oracle saying which `db.marketPrice.upsert` calls throw
  (the handler catches such errors and only logs them).

Items are modelled as already-typed quote records; a price field that is
absent, `null` or `NaN` is `none` (all are mapped to `0` by
`item.price || 0`).  The handler's outer catch-all (a mid-loop exception
from a malformed item) is outside the model: every modelled item is
processed by the loop body exactly as typed. -/

/-- One entry of the defaults table. -/
structure DefaultPrice where
  price : QQ
  change24h : QQ
  high : QQ
  low : QQ
deriving DecidableEq

/-- The `DEFAULT_PRICES` table — static fallback prices (route.ts lines 22–29). -/
def DEFAULT_PRICES : List (String × DefaultPrice) :=
  [("SP500", ⟨qq 534052 100, qq 15 100, qq 536520 100, qq 531840 100⟩),
   ("GOLD", ⟨qq 293550 100, qq 32 100, qq 294830 100, qq 292010 100⟩),
   ("SILVER", ⟨qq 3325 100, qq (-18) 100, qq 3380 100, qq 3290 100⟩),
   ("BTC", ⟨qInt 96500, qq 125 100, qInt 97200, qInt 95500⟩),
   ("ETH", ⟨qInt 2725, qq 85 100, qInt 2750, qInt 2690⟩),
   ("USDKZT", ⟨qq 49462 100, qq 12 100, qq 49650 100, qq 49230 100⟩)]

/-- The `SYMBOL_NAMES` table — display names (route.ts lines 6–19). -/
def SYMBOL_NAMES : List (String × String) :=
  [("^GSPC", "S&P 500"), ("GC=F", "Gold"), ("SI=F", "Silver"),
   ("BTC-USD", "Bitcoin"), ("ETH-USD", "Ethereum"), ("KZT=X", "USD/KZT"),
   ("SP500", "S&P 500"), ("GOLD", "Gold"), ("SILVER", "Silver"),
   ("BTC", "Bitcoin"), ("ETH", "Ethereum"), ("USDKZT", "USD/KZT")]

/-- The inline symbol-mapping chain (route.ts lines 73–91), starting from a
ticker `t` and an initial display name `d` (`item.name || item.ticker`).
Tickers not in the chain pass through with the display name untouched. -/
def normalizePair (t d : String) : String × String :=
  if t = "^GSPC" then ("SP500", "S&P 500")
  else if t = "GC=F" then ("GOLD", "Gold")
  else if t = "SI=F" then ("SILVER", "Silver")
  else if t = "BTC-USD" then ("BTC", "Bitcoin")
  else if t = "ETH-USD" then ("ETH", "Ethereum")
  else if t = "KZT=X" then ("USDKZT", "USD/KZT")
  else (t, d)

/-- Normalization of a bare raw ticker (no upstream display name):
`canonicalSymbol` and `displayName`. -/
def normalize (raw : String) : String × String := normalizePair raw raw

/-- The plausibility test applied to a reported price against the reference
`defaultPrice.price` (route.ts line 98):
`price <= 0 || price < defaultPrice.price * 0.5 || price > defaultPrice.price * 2`. -/
def implausible (ref p : QQ) : Bool :=
  qLe p qZero || qLt p (qMul ref (qq 1 2)) || qLt (qMul ref (qq 2 1)) p

/-- Normalize-and-validate of the reported price (route.ts lines 94–100):
when a default is configured for the normalized symbol and the price is
implausible, the price is replaced by the static default price. -/
def validatePrice (sym : String) (p0 : QQ) : QQ :=
  match DEFAULT_PRICES.lookup sym with
  | some d => if implausible d.price p0 then d.price else p0
  | none => p0

/-- A snapshot item as consumed by the loop.  `price = none` models an
absent / `null` / `NaN` price (`item.price || 0` sends each to `0`; a
present zero behaves identically).  `name = none` models an absent or empty
upstream name (`item.name || item.ticker`). -/
structure Item where
  ticker : String
  name : Option String
  price : Option QQ
  changePercent : Option QQ
  high : Option QQ
  low : Option QQ
  volume : Option QQ
deriving DecidableEq

/-- A response entry (the `prices` array element). -/
structure Entry where
  symbol : String
  name : String
  price : QQ
  change24h : Option QQ
  high24h : Option QQ
  low24h : Option QQ
  volume : Option QQ
deriving DecidableEq

/-- A persisted `MarketPrice` record. -/
structure StoredRec where
  symbol : String
  name : String
  price : QQ
  change24h : Option QQ
  high24h : Option QQ
  low24h : Option QQ
  volume : Option QQ
  updatedAt : Int
deriving DecidableEq

/-- Nullish coalescing `a ?? b`. -/
def coalesce (a b : Option QQ) : Option QQ :=
  match a with
  | some x => some x
  | none => b

/-- JavaScript `v || null`: a zero value is falsy and becomes `null`. -/
def jsOrNull (v : Option QQ) : Option QQ :=
  match v with
  | some x => if qEq x qZero then none else some x
  | none => none

/-- The response entry built for one live item (route.ts lines 103–111). -/
def mkEntry (sym disp : String) (p : QQ) (item : Item) : Entry :=
  let d := DEFAULT_PRICES.lookup sym
  { symbol := sym
    name := disp
    price := p
    change24h := coalesce item.changePercent (d.map (fun x => x.change24h))
    high24h := coalesce item.high (d.map (fun x => x.high))
    low24h := coalesce item.low (d.map (fun x => x.low))
    volume := jsOrNull item.volume }

/-- Model of the upsert keyed by symbol: overwrite the record with that
symbol, or append a new one; `updatedAt` is set to the current time. -/
def upsert (store : List StoredRec) (e : Entry) (now : Int) : List StoredRec :=
  let rec' : StoredRec :=
    ⟨e.symbol, e.name, e.price, e.change24h, e.high24h, e.low24h, e.volume, now⟩
  if store.any (fun r => r.symbol == e.symbol) then
    store.map (fun r => if r.symbol == e.symbol then rec' else r)
  else store ++ [rec']

/-- The per-item live loop (route.ts lines 67–134): normalize, validate,
and for a positive validated price push the entry and attempt the upsert;
an upsert failure (`fails` at that symbol) is caught and only logged, so it
changes neither the entry list nor the rest of the batch. -/
def liveLoop (fails : String → Bool) (now : Int) :
    List Item → List Entry → List StoredRec → List Entry × List StoredRec
  | [], acc, store => (acc, store)
  | item :: rest, acc, store =>
      let nd := normalizePair item.ticker (item.name.getD item.ticker)
      let p := validatePrice nd.1 ((item.price.getD qZero))
      if qLt qZero p then
        let e := mkEntry nd.1 nd.2 p item
        let store2 := if fails nd.1 then store else upsert store e now
        liveLoop fails now rest (acc ++ [e]) store2
      else liveLoop fails now rest acc store

/-- A cached record mapped back to a response entry (route.ts lines
155–163). -/
def toEntry (r : StoredRec) : Entry :=
  ⟨r.symbol, r.name, r.price, r.change24h, r.high24h, r.low24h, r.volume⟩

/-- The freshness test over the cached records with a one-hour
window (route.ts lines 151–152). -/
def hasRecent (store : List StoredRec) (now : Int) : Bool :=
  store.any (fun r => now - 3600000 < r.updatedAt)

/-- One default response entry (route.ts lines 169–177 and 187–195 build
the identical shape). -/
def defaultEntry (sym : String) (d : DefaultPrice) : Entry :=
  ⟨sym, (SYMBOL_NAMES.lookup sym).getD sym, d.price,
   some d.change24h, some d.high, some d.low, none⟩

/-- The full default list, in `Object.entries(DEFAULT_PRICES)` insertion
order (route.ts lines 168–178). -/
def defaultEntries : List Entry :=
  DEFAULT_PRICES.map (fun p => defaultEntry p.1 p.2)

/-- The fallback block (route.ts lines 145–179), entered when the live
stage produced no entries: read the whole store; when it is non-empty and
some record is within the freshness window, the entire cached set becomes
the response; when the response is still empty, the static defaults do. -/
def cacheFallback (store : List StoredRec) (now : Int) (prices : List Entry) : List Entry :=
  let prices1 :=
    if store.length > 0 && hasRecent store now then store.map toEntry else prices
  if prices1.isEmpty then defaultEntries else prices1

def requiredSymbols : List String :=
  ["SP500", "GOLD", "SILVER", "BTC", "ETH", "USDKZT"]

/-- One step of the required-symbol fill loop (route.ts lines 183–198). -/
def fillStep (acc : List Entry) (sym : String) : List Entry :=
  if acc.any (fun e => e.symbol == sym) then acc
  else
    match DEFAULT_PRICES.lookup sym with
    | some d => acc ++ [defaultEntry sym d]
    | none => acc

/-- The required-symbol fill loop: every required symbol missing from the
response is appended from the static defaults. -/
def fillRequired (acc : List Entry) : List Entry :=
  requiredSymbols.foldl fillStep acc

/-- The whole `GET` pipeline: live stage, cache fallback, default
fallback, and the final fill; the result is the `prices` array of the
response together with the final store contents. -/
def resolvePrices (snapshot : Option (List Item)) (store : List StoredRec)
    (now : Int) (fails : String → Bool) : List Entry × List StoredRec :=
  match snapshot with
  | none => (fillRequired (cacheFallback store now []), store)
  | some items =>
      let r := liveLoop fails now items [] store
      if r.1.isEmpty then (fillRequired (cacheFallback r.2 now []), r.2)
      else (fillRequired r.1, r.2)

/-! ## Concrete fixtures for the claim theorems -/

/-- The configured Bitcoin range, `PRICE_RANGES['BTC-USD']`. -/
def btcRange : PriceRange := ⟨qInt 50000, qInt 150000, "USD"⟩

/-- The midpoint-selection scenario snippets: candidates 97200 and 98000
against the Bitcoin range. -/
def midSnips : List SearchResult :=
  [⟨"Bitcoin price today", "Bitcoin is trading at $97,200 right now"⟩,
   ⟨"BTC market data", "BTC high $98,000 on the day"⟩]

/-- A snippet with no numbers whose text still matches the percent pattern
(`.` captured before `%`). -/
def dotSnip : List SearchResult := [⟨"", ".%"⟩]

/-- A snippet with no numbers and no percent sign. -/
def plainSnip : List SearchResult := [⟨"no figures here", "market news without data"⟩]

/-- A well-formed live Bitcoin snapshot item. -/
def btcItem : Item :=
  ⟨"BTC-USD", some "Bitcoin", some (qInt 96000), some (qq 11 10), some (qInt 97000),
   some (qInt 95000), some (qInt 2000000000)⟩

/-- A cached Bitcoin record updated ten minutes before the reference time
`1000000000`. -/
def btcRec : StoredRec :=
  ⟨"BTC", "Bitcoin", qInt 96000, some (qq 11 10), some (qInt 97000), some (qInt 95000),
   some (qInt 2000000000), 999400000⟩

/-- Canonical symbol paired with the raw ticker keying its range. -/
def symbolPairs : List (String × String) :=
  [("SP500", "^GSPC"), ("GOLD", "GC=F"), ("SILVER", "SI=F"),
   ("BTC", "BTC-USD"), ("ETH", "ETH-USD"), ("USDKZT", "KZT=X")]

/-- Evaluate a plausibility check against a symbol's configured default
price and range. -/
def checkPair (f : QQ → PriceRange → Bool) (p : String × String) : Bool :=
  match DEFAULT_PRICES.lookup p.1, rangeFor p.2 with
  | some d, some r => f d.price r
  | _, _ => false

/-! ## Semantics lemmas for `QQ` -/

theorem den_cast_pos (a : QQ) : (0 : ℚ) < ((a.den : ℕ) : ℚ) := by
  exact_mod_cast a.den.pos

theorem den_cast_ne (a : QQ) : (((a.den : ℕ) : ℚ)) ≠ 0 := ne_of_gt (den_cast_pos a)

theorem qEq_iff (a b : QQ) : qEq a b = true ↔ toRat a = toRat b := by
  unfold qEq toRat
  rw [decide_eq_true_iff, div_eq_div_iff (den_cast_ne a) (den_cast_ne b)]
  constructor <;> intro h <;> exact_mod_cast h

theorem qLe_iff (a b : QQ) : qLe a b = true ↔ toRat a ≤ toRat b := by
  unfold qLe toRat
  rw [decide_eq_true_iff, div_le_div_iff (den_cast_pos a) (den_cast_pos b)]
  constructor <;> intro h <;> exact_mod_cast h

theorem qLt_iff (a b : QQ) : qLt a b = true ↔ toRat a < toRat b := by
  unfold qLt toRat
  rw [decide_eq_true_iff, div_lt_div_iff (den_cast_pos a) (den_cast_pos b)]
  constructor <;> intro h <;> exact_mod_cast h

theorem toRat_qInt (n : Int) : toRat (qInt n) = (n : ℚ) := by
  simp [qInt, toRat]

theorem toRat_qZero : toRat qZero = 0 := by
  simp [qZero, toRat]

theorem toRat_qq (n : Int) (d : ℕ+) : toRat (qq n d) = (n : ℚ) / ((d : ℕ) : ℚ) := rfl

theorem toRat_qAdd (a b : QQ) : toRat (qAdd a b) = toRat a + toRat b := by
  unfold qAdd toRat
  have ha := den_cast_ne a
  have hb := den_cast_ne b
  push_cast
  field_simp

theorem toRat_qSub (a b : QQ) : toRat (qSub a b) = toRat a - toRat b := by
  unfold qSub toRat
  have ha := den_cast_ne a
  have hb := den_cast_ne b
  push_cast
  field_simp
  ring

theorem toRat_qMul (a b : QQ) : toRat (qMul a b) = toRat a * toRat b := by
  unfold qMul toRat
  have ha := den_cast_ne a
  have hb := den_cast_ne b
  push_cast
  field_simp

theorem toRat_qAbs (a : QQ) : toRat (qAbs a) = |toRat a| := by
  unfold qAbs toRat
  rw [abs_div, abs_of_pos (den_cast_pos a)]
  push_cast
  rfl

/-! ## Extractor lemmas -/

theorem qEq_zero_iff (a : QQ) : qEq a qZero = true ↔ toRat a = 0 := by
  rw [qEq_iff, toRat_qZero]

theorem toRat_qq_nd (n : Int) (d : ℕ+) : toRat (qq n d) = (n : ℚ) / ((d : ℕ) : ℚ) := rfl

theorem toRat_half : toRat (qq 1 2) = 1 / 2 := by
  rw [toRat_qq_nd]
  norm_num [PNat.val_ofNat]

theorem toRat_q101 : toRat (qq 101 100) = 101 / 100 := by
  rw [toRat_qq_nd]
  norm_num [PNat.val_ofNat]

theorem toRat_q99 : toRat (qq 99 100) = 99 / 100 := by
  rw [toRat_qq_nd]
  norm_num [PNat.val_ofNat]

theorem toRat_two : toRat (qq 2 1) = 2 := by
  rw [toRat_qq_nd]
  norm_num

theorem toRat_qdist (a mid : QQ) : toRat (qAbs (qSub a mid)) = |toRat a - toRat mid| := by
  rw [toRat_qAbs, toRat_qSub]

/-- With a positive accumulator, the candidate loop's step keeps the value
closer to the midpoint (the accumulator on ties). -/
theorem pickStep_of_pos (mid acc n : QQ) (h : 0 < toRat acc) :
    pickStep mid acc n =
      if qLt (qAbs (qSub n mid)) (qAbs (qSub acc mid)) then n else acc := by
  unfold pickStep
  have hz : qEq acc qZero = false := by
    rw [Bool.eq_false_iff]
    intro hq
    exact absurd ((qEq_zero_iff acc).mp hq) (ne_of_gt h)
  rw [hz, Bool.false_or]

/-- Invariant of the candidate loop over positive values: the result is the
accumulator or a list element, stays positive, and its distance to the
midpoint is a lower bound improvement over the accumulator and every list
element. -/
theorem pickLoop_spec (mid : QQ) :
    ∀ (l : List QQ) (acc : QQ), 0 < toRat acc → (∀ c ∈ l, 0 < toRat c) →
      (l.foldl (pickStep mid) acc = acc ∨ l.foldl (pickStep mid) acc ∈ l) ∧
      0 < toRat (l.foldl (pickStep mid) acc) ∧
      |toRat (l.foldl (pickStep mid) acc) - toRat mid| ≤ |toRat acc - toRat mid| ∧
      ∀ c ∈ l, |toRat (l.foldl (pickStep mid) acc) - toRat mid| ≤ |toRat c - toRat mid| := by
  intro l
  induction l with
  | nil =>
      intro acc hacc _
      refine ⟨Or.inl rfl, hacc, le_refl _, ?_⟩
      intro c hc
      exact absurd hc (List.not_mem_nil c)
  | cons n t ih =>
      intro acc hacc hall
      have hn : 0 < toRat n := hall n (List.mem_cons_self n t)
      have ht : ∀ c ∈ t, 0 < toRat c := fun c hc => hall c (List.mem_cons_of_mem n hc)
      have hstep := pickStep_of_pos mid acc n hacc
      by_cases hlt : qLt (qAbs (qSub n mid)) (qAbs (qSub acc mid)) = true
      · have hacc' : pickStep mid acc n = n := by rw [hstep, if_pos hlt]
        have hcmp : |toRat n - toRat mid| < |toRat acc - toRat mid| := by
          have := (qLt_iff _ _).mp hlt
          rwa [toRat_qdist, toRat_qdist] at this
        have := ih n hn ht
        rw [List.foldl_cons, hacc']
        refine ⟨?_, this.2.1, ?_, ?_⟩
        · rcases this.1 with h | h
          · exact Or.inr (by rw [h]; exact List.mem_cons_self n t)
          · exact Or.inr (List.mem_cons_of_mem n h)
        · exact le_trans this.2.2.1 (le_of_lt hcmp)
        · intro c hc
          rcases List.mem_cons.mp hc with rfl | hc
          · exact this.2.2.1
          · exact this.2.2.2 c hc
      · have hacc' : pickStep mid acc n = acc := by
          rw [hstep, if_neg hlt]
        have hcmp : |toRat acc - toRat mid| ≤ |toRat n - toRat mid| := by
          have := (qLt_iff (qAbs (qSub n mid)) (qAbs (qSub acc mid))).not.mp
            (by simpa using hlt)
          rw [toRat_qdist, toRat_qdist] at this
          linarith [not_lt.mp this]
        have := ih acc hacc ht
        rw [List.foldl_cons, hacc']
        refine ⟨?_, this.2.1, this.2.2.1, ?_⟩
        · rcases this.1 with h | h
          · exact Or.inl h
          · exact Or.inr (List.mem_cons_of_mem n h)
        · intro c hc
          rcases List.mem_cons.mp hc with rfl | hc
          · exact le_trans this.2.2.1 hcmp
          · exact this.2.2.2 c hc

/-- Every candidate is positive when the configured minimum is. -/
theorem candidates_pos (text : List Char) (range : PriceRange)
    (hmin : qLt qZero range.min = true) :
    ∀ c ∈ candidates text range, 0 < toRat c := by
  intro c hc
  unfold candidates at hc
  rw [List.mem_filter] at hc
  rcases hc with ⟨-, hp⟩
  rw [Bool.and_eq_true] at hp
  have h1 := (qLe_iff _ _).mp hp.1
  have h0 := (qLt_iff _ _).mp hmin
  rw [toRat_qZero] at h0
  linarith

/-- With no surviving candidate the resolved price is the range midpoint. -/
theorem resolvedPrice_of_empty (text : List Char) (range : PriceRange)
    (h : candidates text range = []) :
    resolvedPrice text range = qMid range := by
  unfold resolvedPrice pickPrice
  rw [h]
  simp [List.foldl, qEq, qZero]

/-- With surviving candidates and a positive configured minimum, the
resolved price is a candidate, is positive, and minimizes the distance to
the range midpoint over all candidates. -/
theorem resolvedPrice_of_nonempty (text : List Char) (range : PriceRange)
    (hmin : qLt qZero range.min = true) (hne : candidates text range ≠ []) :
    resolvedPrice text range ∈ candidates text range ∧
    0 < toRat (resolvedPrice text range) ∧
    ∀ c ∈ candidates text range,
      |toRat (resolvedPrice text range) - toRat (qMid range)| ≤
        |toRat c - toRat (qMid range)| := by
  rcases List.exists_cons_of_ne_nil hne with ⟨n, t, hcands⟩
  have hall := candidates_pos text range hmin
  rw [hcands] at hall
  have hn : 0 < toRat n := hall n (List.mem_cons_self n t)
  have ht : ∀ c ∈ t, 0 < toRat c := fun c hc => hall c (List.mem_cons_of_mem n hc)
  have hstep0 : pickStep (qMid range) qZero n = n := by
    simp [pickStep, qEq, qZero]
  have hp0 : pickPrice (qMid range) (candidates text range) =
      (t.foldl (pickStep (qMid range)) n) := by
    unfold pickPrice
    rw [hcands, List.foldl_cons, hstep0]
  have hloop := pickLoop_spec (qMid range) t n hn ht
  have hmem : pickPrice (qMid range) (candidates text range) ∈ candidates text range := by
    rw [hp0, hcands]
    rcases hloop.1 with h | h
    · rw [h]
      exact List.mem_cons_self n t
    · exact List.mem_cons_of_mem n h
  have hpos : 0 < toRat (pickPrice (qMid range) (candidates text range)) := by
    rw [hp0]
    exact hloop.2.1
  have hminl : ∀ c ∈ candidates text range,
      |toRat (pickPrice (qMid range) (candidates text range)) - toRat (qMid range)| ≤
        |toRat c - toRat (qMid range)| := by
    intro c hc
    rw [hp0]
    rw [hcands] at hc
    rcases List.mem_cons.mp hc with rfl | hc
    · exact hloop.2.2.1
    · exact hloop.2.2.2 c hc
  have hnz : qEq (pickPrice (qMid range) (candidates text range)) qZero = false := by
    rw [Bool.eq_false_iff]
    intro hq
    exact absurd ((qEq_zero_iff _).mp hq) (ne_of_gt hpos)
  have hres : resolvedPrice text range = pickPrice (qMid range) (candidates text range) := by
    simp only [resolvedPrice, hnz, Bool.false_eq_true, if_false]
  rw [hres]
  exact ⟨hmem, hpos, hminl⟩

/-- The midpoint is positive for a positive, ordered range. -/
theorem qMid_pos (range : PriceRange) (hmin : qLt qZero range.min = true)
    (hle : qLe range.min range.max = true) : 0 < toRat (qMid range) := by
  unfold qMid
  rw [toRat_qMul, toRat_qAdd, toRat_half]
  have h1 := (qLt_iff _ _).mp hmin
  rw [toRat_qZero] at h1
  have h2 := (qLe_iff _ _).mp hle
  linarith

/-- Under a positive, ordered range the resolved price is positive. -/
theorem resolvedPrice_pos (text : List Char) (range : PriceRange)
    (hmin : qLt qZero range.min = true) (hle : qLe range.min range.max = true) :
    0 < toRat (resolvedPrice text range) := by
  by_cases hc : candidates text range = []
  · rw [resolvedPrice_of_empty text range hc]
    exact qMid_pos range hmin hle
  · exact (resolvedPrice_of_nonempty text range hmin hc).2.1

/-- A positive resolved price is strictly below the `high` value. -/
theorem resolvedHigh_gt (text : List Char) (range : PriceRange)
    (hp : 0 < toRat (resolvedPrice text range)) :
    toRat (resolvedPrice text range) < toRat (resolvedHigh text range) := by
  unfold resolvedHigh
  have hsynth : toRat (resolvedPrice text range) <
      toRat (qMul (resolvedPrice text range) (qq 101 100)) := by
    rw [toRat_qMul, toRat_q101]
    nlinarith
  cases hm : (findLabel highLabel text).bind (fun g => parseFloatJS (stripComma g)) with
  | none =>
      simp only [hm]
      have : qEq qZero qZero = true := rfl
      rw [this]
      simpa using hsynth
  | some h =>
      simp only [hm]
      by_cases hlt : qLt (resolvedPrice text range) h = true
      · rw [if_pos hlt]
        have hph := (qLt_iff _ _).mp hlt
        have hnz : qEq h qZero = false := by
          rw [Bool.eq_false_iff]
          intro hq
          have := (qEq_zero_iff h).mp hq
          linarith
        rw [hnz]
        simpa using hph
      · rw [if_neg hlt]
        have : qEq qZero qZero = true := rfl
        rw [this]
        simpa using hsynth

/-- A positive resolved price is strictly above the `low` value. -/
theorem resolvedLow_lt (text : List Char) (range : PriceRange)
    (hp : 0 < toRat (resolvedPrice text range)) :
    toRat (resolvedLow text range) < toRat (resolvedPrice text range) := by
  unfold resolvedLow
  have hsynth : toRat (qMul (resolvedPrice text range) (qq 99 100)) <
      toRat (resolvedPrice text range) := by
    rw [toRat_qMul, toRat_q99]
    nlinarith
  cases hm : (findLabel lowLabel text).bind (fun g => parseFloatJS (stripComma g)) with
  | none =>
      simp only [hm]
      have : qEq qZero qZero = true := rfl
      rw [this]
      simpa using hsynth
  | some v =>
      simp only [hm]
      by_cases hlt : qLt v (resolvedPrice text range) = true
      · rw [if_pos hlt]
        have hvp := (qLt_iff _ _).mp hlt
        by_cases hz : qEq v qZero = true
        · rw [hz]
          simpa using hsynth
        · rw [Bool.eq_false_iff.mpr hz]
          simpa using hvp
      · rw [if_neg hlt]
        have : qEq qZero qZero = true := rfl
        rw [this]
        simpa using hsynth

/-! ## Degenerate-text lemmas (no numeric matches) -/

theorem not_dollar_of_dc (c : Char) (h : isDC c = true) : c ≠ '$' := by
  intro rfl_h
  subst rfl_h
  simp [isDC] at h

/-- A digit-or-comma head always starts a number match. -/
theorem matchNumAt_isSome_of_dc (c : Char) (t : List Char) (h : isDC c = true) :
    matchNumAt (c :: t) ≠ none := by
  have e : matchNumAt (c :: t) =
      (if c = '$' then
        (match t with
         | c2 :: _ =>
             if isDC c2 then some ('$' :: (numToken t).1, (numToken t).2) else none
         | [] => none)
       else if isDC c then some (numToken (c :: t)) else none) := rfl
  rw [e, if_neg (not_dollar_of_dc c h), if_pos h]
  exact Option.some_ne_none _

theorem scanNumsF_nil_no_dc :
    ∀ (fuel : Nat) (l : List Char), l.length ≤ fuel → scanNumsF fuel l = [] →
      ∀ c ∈ l, isDC c = false := by
  intro fuel
  induction fuel with
  | zero =>
      intro l hl _
      rw [Nat.le_zero, List.length_eq_zero] at hl
      subst hl
      intro c hc
      exact absurd hc (List.not_mem_nil c)
  | succ f ih =>
      intro l hl hs
      cases l with
      | nil =>
          intro c hc
          exact absurd hc (List.not_mem_nil c)
      | cons c t =>
          have hdef : scanNumsF (f + 1) (c :: t) =
              match matchNumAt (c :: t) with
              | some p => p.1 :: scanNumsF f p.2
              | none => scanNumsF f t := rfl
          cases hm : matchNumAt (c :: t) with
          | some p =>
              rw [hdef, hm] at hs
              exact absurd hs (List.cons_ne_nil _ _)
          | none =>
              rw [hdef, hm] at hs
              have hc0 : isDC c = false := by
                rw [Bool.eq_false_iff]
                intro hdc
                exact matchNumAt_isSome_of_dc c t hdc hm
              have hrest := ih t (Nat.le_of_succ_le_succ hl) hs
              intro x hx
              rcases List.mem_cons.mp hx with rfl | hx
              · exact hc0
              · exact hrest x hx

/-- An empty number scan means the text has no digit-or-comma character. -/
theorem scanNums_nil_no_dc (l : List Char) (h : scanNums l = []) :
    ∀ c ∈ l, isDC c = false :=
  scanNumsF_nil_no_dc l.length l (le_refl _) h

theorem dropCI_sublist :
    ∀ (label l r : List Char), dropCI label l = some r → r.Sublist l := by
  intro label
  induction label with
  | nil =>
      intro l r h
      unfold dropCI at h
      cases h
      exact List.Sublist.refl _
  | cons p ps ih =>
      intro l r h
      cases l with
      | nil => exact absurd h (by simp [dropCI])
      | cons c cs =>
          unfold dropCI at h
          by_cases hc : Char.toLower c = p
          · rw [if_pos hc] at h
            exact (ih cs r h).cons c
          · rw [if_neg hc] at h
            exact absurd h (by simp)

/-- A list whose head is not a digit-or-comma character fails the number
phase. -/
theorem labelTail_none (r2 : List Char) (h : ∀ c ∈ r2, isDC c = false) :
    labelTail r2 = none := by
  cases r2 with
  | nil => rfl
  | cons c t =>
      have e : labelTail (c :: t) =
          (if isDC c then
            some (((c :: t).takeWhile isDC) ++
              (match (c :: t).drop ((c :: t).takeWhile isDC).length with
                | '.' :: r4 => '.' :: r4.takeWhile Char.isDigit
                | _ => []))
          else none) := rfl
      rw [e, if_neg]
      rw [h c (List.mem_cons_self c t)]
      exact Bool.false_ne_true

theorem tryLabelAt_none (label l : List Char) (h : ∀ c ∈ l, isDC c = false) :
    tryLabelAt label l = none := by
  cases hdc : dropCI label l with
  | none =>
      unfold tryLabelAt
      rw [hdc]
  | some r =>
      have hr : ∀ c ∈ r, isDC c = false := fun c hc =>
        h c ((dropCI_sublist label l r hdc).subset hc)
      have hdws : (r.dropWhile isSpaceColon).Sublist r := List.dropWhile_sublist _
      have hr1 : ∀ c ∈ r.dropWhile isSpaceColon, isDC c = false := fun c hc =>
        hr c (hdws.subset hc)
      have e2 : tryLabelAt label l =
          labelTail (match r.dropWhile isSpaceColon with
            | c :: t => if c = '$' then t else c :: t
            | [] => r.dropWhile isSpaceColon) := by
        unfold tryLabelAt
        rw [hdc]
      rw [e2]
      cases hshape : r.dropWhile isSpaceColon with
      | nil => rfl
      | cons c1 t1 =>
          rw [hshape] at hr1
          show labelTail (if c1 = '$' then t1 else c1 :: t1) = none
          by_cases hc1 : c1 = '$'
          · rw [if_pos hc1]
            exact labelTail_none t1 (fun c hc => hr1 c (List.mem_cons_of_mem c1 hc))
          · rw [if_neg hc1]
            exact labelTail_none (c1 :: t1) hr1

theorem findLabel_none (label : List Char) :
    ∀ (l : List Char), (∀ c ∈ l, isDC c = false) → findLabel label l = none := by
  intro l
  induction l with
  | nil => intro _; rfl
  | cons c t ih =>
      intro h
      have ht : ∀ x ∈ t, isDC x = false := fun x hx => h x (List.mem_cons_of_mem c hx)
      have hdef : findLabel label (c :: t) =
          match tryLabelAt label (c :: t) with
          | some g => some g
          | none => findLabel label t := rfl
      rw [hdef, tryLabelAt_none label (c :: t) h, ih ht]

/-- Parsing a non-empty all-dots token, with or without a sign, is
`NaN`. -/
theorem parseFloat_dots (d : List Char) (hne : d ≠ []) (hd : ∀ c ∈ d, c = '.') :
    parseFloatJS d = none ∧ parseFloatJS ('+' :: d) = none ∧
      parseFloatJS ('-' :: d) = none := by
  rcases List.exists_cons_of_ne_nil hne with ⟨c0, rest, rfl⟩
  have hc0 : c0 = '.' := hd c0 (List.mem_cons_self c0 rest)
  subst hc0
  have hrest : rest.takeWhile Char.isDigit = [] := by
    cases rest with
    | nil => rfl
    | cons c1 t1 =>
        have hc1 : c1 = '.' :=
          hd c1 (List.mem_cons_of_mem _ (List.mem_cons_self c1 t1))
        subst hc1
        simp [List.takeWhile]
  constructor
  · simp [parseFloatJS, List.takeWhile, hrest]
  constructor
  · simp [parseFloatJS, List.takeWhile, hrest]
  · simp [parseFloatJS, List.takeWhile, hrest]

/-- In a digit-free text, any percent match captures a sign/dots token and
parses to `NaN`. -/
theorem findChange_parse_none :
    ∀ (l : List Char), (∀ c ∈ l, c.isDigit = false) →
      ∀ g, findChange l = some g → parseFloatJS g = none := by
  intro l
  induction l with
  | nil =>
      intro _ g h
      exact absurd h (by simp [findChange])
  | cons c t ih =>
      intro hnd g hg
      have hnt : ∀ x ∈ t, x.isDigit = false := fun x hx =>
        hnd x (List.mem_cons_of_mem c hx)
      have hdef : findChange (c :: t) =
          match tryChangeAt (c :: t) with
          | some g' => some g'
          | none => findChange t := rfl
      cases htry : tryChangeAt (c :: t) with
      | none =>
          rw [hdef, htry] at hg
          exact ih hnt g hg
      | some g' =>
          rw [hdef, htry] at hg
          cases hg
          -- analyse the successful attempt
          have e : tryChangeAt (c :: t) =
              (if c = '+' || c = '-' then
                 (if (t.takeWhile isDigitDot).isEmpty then none
                  else
                    match t.drop (t.takeWhile isDigitDot).length with
                    | c2 :: _ =>
                        if c2 = '%' then some (c :: t.takeWhile isDigitDot) else none
                    | [] => none)
               else
                 (if ((c :: t).takeWhile isDigitDot).isEmpty then none
                  else
                    match (c :: t).drop ((c :: t).takeWhile isDigitDot).length with
                    | c2 :: _ =>
                        if c2 = '%' then some ((c :: t).takeWhile isDigitDot) else none
                    | [] => none)) := rfl
          rw [e] at htry
          by_cases hsign : (c = '+' || c = '-') = true
          · rw [if_pos hsign] at htry
            by_cases hrun : (t.takeWhile isDigitDot).isEmpty = true
            · rw [if_pos hrun] at htry
              exact absurd htry (by simp)
            · rw [if_neg hrun] at htry
              have hdots : ∀ x ∈ t.takeWhile isDigitDot, x = '.' := by
                intro x hx
                have hdd : isDigitDot x = true := List.mem_takeWhile_imp hx
                have htws : (t.takeWhile isDigitDot).Sublist t := List.takeWhile_sublist _
                have hxt : x ∈ t := htws.subset hx
                have : x.isDigit = false := hnt x hxt
                simp [isDigitDot, this] at hdd
                exact hdd
              have hne : t.takeWhile isDigitDot ≠ [] := by
                intro hnil
                rw [hnil] at hrun
                exact hrun rfl
              cases hdrop : t.drop (t.takeWhile isDigitDot).length with
              | nil =>
                  rw [hdrop] at htry
                  exact absurd htry (by simp)
              | cons c2 t2 =>
                  rw [hdrop] at htry
                  replace htry :
                      (if c2 = '%' then some (c :: t.takeWhile isDigitDot) else none) =
                        some g := htry
                  by_cases hpc : c2 = '%'
                  · rw [if_pos hpc] at htry
                    have hg' : g = c :: t.takeWhile isDigitDot := by
                      cases htry
                      rfl
                    rw [hg']
                    rcases Bool.or_eq_true _ _ |>.mp hsign with hplus | hminus
                    · rw [of_decide_eq_true hplus]
                      exact (parseFloat_dots _ hne hdots).2.1
                    · rw [of_decide_eq_true hminus]
                      exact (parseFloat_dots _ hne hdots).2.2
                  · rw [if_neg hpc] at htry
                    exact absurd htry (by simp)
          · rw [if_neg hsign] at htry
            by_cases hrun : ((c :: t).takeWhile isDigitDot).isEmpty = true
            · rw [if_pos hrun] at htry
              exact absurd htry (by simp)
            · rw [if_neg hrun] at htry
              have hdots : ∀ x ∈ (c :: t).takeWhile isDigitDot, x = '.' := by
                intro x hx
                have hdd : isDigitDot x = true := List.mem_takeWhile_imp hx
                have htws : ((c :: t).takeWhile isDigitDot).Sublist (c :: t) :=
                  List.takeWhile_sublist _
                have hxt : x ∈ c :: t := htws.subset hx
                have : x.isDigit = false := hnd x hxt
                simp [isDigitDot, this] at hdd
                exact hdd
              have hne : (c :: t).takeWhile isDigitDot ≠ [] := by
                intro hnil
                rw [hnil] at hrun
                exact hrun rfl
              cases hdrop : (c :: t).drop ((c :: t).takeWhile isDigitDot).length with
              | nil =>
                  rw [hdrop] at htry
                  exact absurd htry (by simp)
              | cons c2 t2 =>
                  rw [hdrop] at htry
                  replace htry :
                      (if c2 = '%' then some ((c :: t).takeWhile isDigitDot) else none) =
                        some g := htry
                  by_cases hpc : c2 = '%'
                  · rw [if_pos hpc] at htry
                    have hg' : g = (c :: t).takeWhile isDigitDot := by
                      cases htry
                      rfl
                    rw [hg']
                    exact (parseFloat_dots _ hne hdots).1
                  · rw [if_neg hpc] at htry
                    exact absurd htry (by simp)

/-! ## Pipeline lemmas -/

/-- The fill loop never removes an entry covering a symbol. -/
theorem fillStep_covered_mono (acc : List Entry) (s t : String)
    (h : acc.any (fun e => e.symbol == s) = true) :
    (fillStep acc t).any (fun e => e.symbol == s) = true := by
  unfold fillStep
  by_cases hc : acc.any (fun e => e.symbol == t) = true
  · rw [if_pos hc]
    exact h
  · rw [if_neg hc]
    cases hd : DEFAULT_PRICES.lookup t with
    | some d =>
        rw [List.any_append, h]
        rfl
    | none => exact h

theorem foldl_fillStep_covered_mono (syms : List String) :
    ∀ (acc : List Entry) (s : String), acc.any (fun e => e.symbol == s) = true →
      (syms.foldl fillStep acc).any (fun e => e.symbol == s) = true := by
  induction syms with
  | nil =>
      intro acc s h
      exact h
  | cons t rest ih =>
      intro acc s h
      rw [List.foldl_cons]
      exact ih _ s (fillStep_covered_mono acc s t h)

/-- One fill step covers its own symbol whenever a default is configured. -/
theorem fillStep_covers_self (acc : List Entry) (s : String) (d : DefaultPrice)
    (hd : DEFAULT_PRICES.lookup s = some d) :
    (fillStep acc s).any (fun e => e.symbol == s) = true := by
  unfold fillStep
  by_cases hc : acc.any (fun e => e.symbol == s) = true
  · rw [if_pos hc]
    exact hc
  · rw [if_neg hc, hd, List.any_append]
    simp [defaultEntry]

/-- After the fill loop every listed symbol with a configured default is
covered. -/
theorem foldl_fill_covers :
    ∀ (syms : List String) (acc : List Entry) (s : String), s ∈ syms →
      ∀ d, DEFAULT_PRICES.lookup s = some d →
        (syms.foldl fillStep acc).any (fun e => e.symbol == s) = true := by
  intro syms
  induction syms with
  | nil =>
      intro acc s hs
      exact absurd hs (List.not_mem_nil s)
  | cons t rest ih =>
      intro acc s hs d hd
      rw [List.foldl_cons]
      rcases List.mem_cons.mp hs with rfl | hs
      · exact foldl_fillStep_covered_mono rest _ s (fillStep_covers_self acc s d hd)
      · exact ih (fillStep acc t) s hs d hd

/-- A list covering distinct symbols has at least that many entries. -/
theorem covered_nodup_le :
    ∀ (syms : List String) (out : List Entry), syms.Nodup →
      (∀ s ∈ syms, out.any (fun e => e.symbol == s) = true) →
      syms.length ≤ out.length := by
  intro syms
  induction syms with
  | nil =>
      intro out _ _
      exact Nat.zero_le _
  | cons s rest ih =>
      intro out hnd hcov
      have hs := hcov s (List.mem_cons_self s rest)
      rw [List.any_eq_true] at hs
      rcases hs with ⟨e, he, hse⟩
      have hub : (out.filter (fun x => !(x.symbol == s))).length < out.length := by
        rw [List.length_filter_lt_length_iff_exists]
        exact ⟨e, he, by simp [hse]⟩
      have hcov' : ∀ u ∈ rest,
          (out.filter (fun x => !(x.symbol == s))).any (fun x => x.symbol == u) = true := by
        intro u hu
        have h2 := hcov u (List.mem_cons_of_mem s hu)
        rw [List.any_eq_true] at h2 ⊢
        rcases h2 with ⟨f, hf, hfu⟩
        refine ⟨f, ?_, hfu⟩
        rw [List.mem_filter]
        refine ⟨hf, ?_⟩
        have hne : u ≠ s := by
          intro hus
          subst hus
          exact (List.nodup_cons.mp hnd).1 hu
        have hfe : f.symbol = u := by
          rwa [beq_iff_eq] at hfu
        simp [hfe, hne]
      have hih := ih _ (List.nodup_cons.mp hnd).2 hcov'
      have : rest.length + 1 ≤ (out.filter (fun x => !(x.symbol == s))).length + 1 :=
        Nat.add_le_add_right hih 1
      calc (s :: rest).length = rest.length + 1 := rfl
        _ ≤ (out.filter (fun x => !(x.symbol == s))).length + 1 := this
        _ ≤ out.length := Nat.succ_le_of_lt hub

theorem resolvePrices_none (store : List StoredRec) (now : Int) (fails : String → Bool) :
    resolvePrices none store now fails = (fillRequired (cacheFallback store now []), store) := rfl

theorem resolvePrices_some (items : List Item) (store : List StoredRec) (now : Int)
    (fails : String → Bool) :
    resolvePrices (some items) store now fails =
      (if (liveLoop fails now items [] store).1.isEmpty then
        (fillRequired (cacheFallback (liveLoop fails now items [] store).2 now []),
         (liveLoop fails now items [] store).2)
       else (fillRequired (liveLoop fails now items [] store).1,
             (liveLoop fails now items [] store).2)) := rfl

/-- The response list is always a fill-loop result. -/
theorem resolvePrices_fst_fill (snapshot : Option (List Item)) (store : List StoredRec)
    (now : Int) (fails : String → Bool) :
    ∃ X, (resolvePrices snapshot store now fails).1 = fillRequired X := by
  cases snapshot with
  | none => exact ⟨_, rfl⟩
  | some items =>
      rw [resolvePrices_some]
      split
      · exact ⟨_, rfl⟩
      · exact ⟨_, rfl⟩

/-- The entries produced by the live loop do not depend on the store state
or on which upserts fail. -/
theorem liveLoop_fst_indep (now : Int) :
    ∀ (items : List Item) (acc : List Entry) (store store' : List StoredRec)
      (f g : String → Bool),
      (liveLoop f now items acc store).1 = (liveLoop g now items acc store').1 := by
  intro items
  induction items with
  | nil =>
      intro acc store store' f g
      rfl
  | cons item rest ih =>
      intro acc store store' f g
      simp only [liveLoop]
      by_cases hp : qLt qZero (validatePrice
          (normalizePair item.ticker (item.name.getD item.ticker)).1
          (item.price.getD qZero)) = true
      · rw [if_pos hp, if_pos hp]
        exact ih _ _ _ f g
      · rw [if_neg hp, if_neg hp]
        exact ih _ _ _ f g

/-- The live loop only appends to its accumulator. -/
theorem liveLoop_fst_nil_acc (now : Int) (f : String → Bool) :
    ∀ (items : List Item) (acc : List Entry) (store : List StoredRec),
      (liveLoop f now items acc store).1 = [] → acc = [] := by
  intro items
  induction items with
  | nil =>
      intro acc store h
      exact h
  | cons item rest ih =>
      intro acc store h
      simp only [liveLoop] at h
      by_cases hp : qLt qZero (validatePrice
          (normalizePair item.ticker (item.name.getD item.ticker)).1
          (item.price.getD qZero)) = true
      · rw [if_pos hp] at h
        have := ih _ _ h
        exact absurd this (by simp)
      · rw [if_neg hp] at h
        exact ih _ _ h

/-- When the live loop produced no entry, it performed no upsert either. -/
theorem liveLoop_snd_of_fst_nil (now : Int) (f : String → Bool) :
    ∀ (items : List Item) (store : List StoredRec),
      (liveLoop f now items [] store).1 = [] →
      (liveLoop f now items [] store).2 = store := by
  intro items
  induction items with
  | nil =>
      intro store _
      rfl
  | cons item rest ih =>
      intro store h
      simp only [liveLoop] at h ⊢
      by_cases hp : qLt qZero (validatePrice
          (normalizePair item.ticker (item.name.getD item.ticker)).1
          (item.price.getD qZero)) = true
      · rw [if_pos hp] at h
        have := liveLoop_fst_nil_acc now f rest _ _ h
        exact absurd this (by simp)
      · rw [if_neg hp] at h
        rw [if_neg hp]
        exact ih store h

/-- Every configured default price is positive. -/
theorem DEFAULT_PRICES_price_pos (sym : String) (d : DefaultPrice)
    (h : DEFAULT_PRICES.lookup sym = some d) : 0 < toRat d.price := by
  simp only [DEFAULT_PRICES, List.lookup] at h
  repeat' split at h
  all_goals
    first
    | (injection h with h2
       subst h2
       norm_num [toRat, qq, qInt, PNat.val_ofNat])
    | exact absurd h (by simp)

/-! ## Claim theorems -/

theorem foldl_fill_covers_isSome (syms : List String) (acc : List Entry) (s : String)
    (hs : s ∈ syms) (hd : (DEFAULT_PRICES.lookup s).isSome = true) :
    (syms.foldl fillStep acc).any (fun e => e.symbol == s) = true := by
  rcases Option.isSome_iff_exists.mp hd with ⟨d, hdd⟩
  exact foldl_fill_covers syms acc s hs d hdd

/-- C1 counterexample: when the upstream snapshot repeats a ticker, the
loop pushes one entry per item, so the response holds two entries for the
requested symbol BTC — "exactly one entry per requested symbol" fails. -/
theorem batch_duplicate_ticker_counterexample :
    "BTC" ∈ requiredSymbols ∧
    ((resolvePrices (some [btcItem, btcItem]) [] 0 (fun _ => false)).1.countP
      (fun e => e.symbol == "BTC")) = 2 := by
  decide

/-- C1 (amended): for every snapshot outcome, store state and upsert-failure
pattern, the response list contains at least one entry for each of the six
required symbols (each has a configured static default, so the final fill
loop completes whatever the earlier stages produced), and therefore never
has fewer entries than the requested count; exactness can fail only through
duplicate live entries for the same symbol. -/
theorem resolveAll_at_least_one_per_required_symbol :
    ∀ (snapshot : Option (List Item)) (store : List StoredRec) (now : Int)
      (fails : String → Bool),
      (∀ s ∈ requiredSymbols,
        ((resolvePrices snapshot store now fails).1.any (fun e => e.symbol == s)) = true) ∧
      6 ≤ (resolvePrices snapshot store now fails).1.length := by
  intro snapshot store now fails
  rcases resolvePrices_fst_fill snapshot store now fails with ⟨X, hX⟩
  rw [hX]
  have hcov : ∀ s ∈ requiredSymbols,
      (fillRequired X).any (fun e => e.symbol == s) = true := by
    intro s hs
    have hs' : s = "SP500" ∨ s = "GOLD" ∨ s = "SILVER" ∨ s = "BTC" ∨ s = "ETH" ∨
        s = "USDKZT" := by
      simpa [requiredSymbols] using hs
    unfold fillRequired
    rcases hs' with rfl | rfl | rfl | rfl | rfl | rfl <;>
      exact foldl_fill_covers_isSome requiredSymbols X _ (by decide) (by decide)
  refine ⟨hcov, ?_⟩
  exact covered_nodup_le requiredSymbols (fillRequired X) (by decide) hcov

/-- C1 witness: the amended theorem on an empty store with a failed live
stage. -/
theorem resolveAll_at_least_one_witness :
    ((resolvePrices none [] 0 (fun _ => false)).1.any (fun e => e.symbol == "BTC")) = true ∧
    6 ≤ (resolvePrices none [] 0 (fun _ => false)).1.length :=
  ⟨(resolveAll_at_least_one_per_required_symbol none [] 0 (fun _ => false)).1 "BTC"
      (by decide),
   (resolveAll_at_least_one_per_required_symbol none [] 0 (fun _ => false)).2⟩

/-- C6 counterexample: with a store holding only a ten-minute-old BTC
record and a failed live stage, the response is not the cached set alone —
the fill loop appends the five default entries, producing exactly the
"cached-BTC plus defaults-for-others" mix the claim rules out. -/
theorem cache_fallback_mix_counterexample :
    hasRecent [btcRec] 1000000000 = true ∧
    (resolvePrices none [btcRec] 1000000000 (fun _ => false)).1 ≠ [btcRec].map toEntry ∧
    (resolvePrices none [btcRec] 1000000000 (fun _ => false)).1.length = 6 := by
  decide

/-- C6 (amended): when the resolved set is empty, the store is non-empty
and at least one record is within the one-hour window, the cache stage
takes the entire cached set — stale records included, with no per-record
freshness filtering — and the final response is that whole set extended by
static defaults for any required symbol the cache does not cover. -/
theorem cache_fallback_whole_set :
    ∀ (store : List StoredRec) (now : Int) (fails : String → Bool),
      store ≠ [] → hasRecent store now = true →
      cacheFallback store now [] = store.map toEntry ∧
      (resolvePrices none store now fails).1 = fillRequired (store.map toEntry) := by
  intro store now fails h1 h2
  rcases List.exists_cons_of_ne_nil h1 with ⟨r, t, rfl⟩
  have hc : cacheFallback (r :: t) now [] = (r :: t).map toEntry := by
    simp [cacheFallback, h2]
  refine ⟨hc, ?_⟩
  rw [resolvePrices_none]
  show fillRequired (cacheFallback (r :: t) now []) = _
  rw [hc]

/-- C6 witness: the amended theorem at the single fresh BTC record. -/
theorem cache_fallback_whole_set_witness :
    cacheFallback [btcRec] 1000000000 [] = [btcRec].map toEntry :=
  (cache_fallback_whole_set [btcRec] 1000000000 (fun _ => false) (by decide) (by decide)).1

/-- C9: the response list is identical whatever subset of upserts fails —
a persistence failure is absorbed, the failed symbol's quote still appears,
and the rest of the batch is processed unchanged; concretely, with the BTC
upsert failing, the BTC quote is still returned. -/
theorem upsert_failure_does_not_affect_response :
    (∀ (snapshot : Option (List Item)) (store : List StoredRec) (now : Int)
        (fails : String → Bool),
        (resolvePrices snapshot store now fails).1 =
          (resolvePrices snapshot store now (fun _ => false)).1) ∧
    ((resolvePrices (some [btcItem]) [] 0 (fun s => s == "BTC")).1.any
        (fun e => e.symbol == "BTC")) = true := by
  constructor
  · intro snapshot store now fails
    cases snapshot with
    | none => rfl
    | some items =>
        rw [resolvePrices_some, resolvePrices_some]
        have hfst := liveLoop_fst_indep now items [] store store fails (fun _ => false)
        by_cases h : (liveLoop fails now items [] store).1.isEmpty = true
        · have h0 : (liveLoop (fun _ => false) now items [] store).1.isEmpty = true := by
            rw [← hfst]
            exact h
          rw [if_pos h, if_pos h0]
          have hnil : (liveLoop fails now items [] store).1 = [] := by
            rwa [List.isEmpty_iff] at h
          have hnil0 : (liveLoop (fun _ => false) now items [] store).1 = [] := by
            rwa [List.isEmpty_iff] at h0
          rw [liveLoop_snd_of_fst_nil now fails items store hnil,
            liveLoop_snd_of_fst_nil now (fun _ => false) items store hnil0]
        · have h0 : ¬(liveLoop (fun _ => false) now items [] store).1.isEmpty = true := by
            rw [← hfst]
            exact h
          rw [if_neg h, if_neg h0]
          show fillRequired (liveLoop fails now items [] store).1 =
            fillRequired (liveLoop (fun _ => false) now items [] store).1
          rw [hfst]
  · decide

/-- C2 counterexample: for the Bitcoin range `{50000, 150000}` (midpoint
100000) with surviving candidates 97200 and 98000, the extractor resolves
`price` to 98000 — the candidate closest to the midpoint — and not to
97200 as the claim's concrete instance asserts. -/
theorem extractor_midpoint_selection_counterexample :
    candidates (combineText midSnips) btcRange = [qInt 97200, qInt 98000] ∧
    qEq (extractCore (combineText midSnips) btcRange).price (qInt 98000) = true ∧
    qEq (extractCore (combineText midSnips) btcRange).price (qInt 97200) = false := by
  decide

/-- C2 (amended): for every snippet text and every range with positive
minimum, the extractor parses the numeric matches, keeps those inside
`[min, max]`, and resolves `price` to a surviving candidate whose distance
to the range midpoint is minimal (the midpoint itself when no candidate
survives); in the Bitcoin instance with candidates 97200 and 98000 the
resolved price is therefore 98000, not 97200. -/
theorem extractor_closest_to_midpoint :
    (∀ (text : List Char) (range : PriceRange), qLt qZero range.min = true →
      (candidates text range = [] → (extractCore text range).price = qMid range) ∧
      (candidates text range ≠ [] →
        (extractCore text range).price ∈ candidates text range ∧
        ∀ c ∈ candidates text range,
          |toRat (extractCore text range).price - toRat (qMid range)| ≤
            |toRat c - toRat (qMid range)|)) ∧
    qEq (extractCore (combineText midSnips) btcRange).price (qInt 98000) = true ∧
    rangeFor "BTC-USD" = some btcRange := by
  refine ⟨?_, by decide, by decide⟩
  intro text range hmin
  constructor
  · intro hc
    show resolvedPrice text range = qMid range
    exact resolvedPrice_of_empty text range hc
  · intro hne
    have h := resolvedPrice_of_nonempty text range hmin hne
    exact ⟨h.1, h.2.2⟩

/-- C2 witness: the amended theorem applied to the Bitcoin scenario. -/
theorem extractor_closest_to_midpoint_witness :
    (extractCore (combineText midSnips) btcRange).price ∈
      candidates (combineText midSnips) btcRange :=
  ((extractor_closest_to_midpoint.1 (combineText midSnips) btcRange (by decide)).2
    (by decide)).1

/-- C3 counterexample: on an empty snippet set the extractor returns
`null` (no quote), not a midpoint-default result. -/
theorem extractor_empty_results_counterexample :
    rangeFor "BTC-USD" = some btcRange ∧
    getPriceViaWebSearch "BTC-USD" "Bitcoin BTC" btcRange [] = none := by
  decide

/-- C3 (amended): the pure extraction path never fails and returns a quote
for every non-empty snippet set; for an empty snippet set it returns
`null` (no quote), which the callers treat as a failed resolution. -/
theorem extractor_total_on_nonempty_results :
    ∀ (symbol displayName : String) (range : PriceRange) (results : List SearchResult),
      results ≠ [] → (getPriceViaWebSearch symbol displayName range results).isSome = true := by
  intro s dn r res h
  unfold getPriceViaWebSearch
  rw [if_neg]
  · rfl
  · simp [h]

/-- C3 witness: the amended theorem applied to a non-empty snippet set. -/
theorem extractor_total_on_nonempty_results_witness :
    (getPriceViaWebSearch "BTC-USD" "Bitcoin BTC" btcRange midSnips).isSome = true :=
  extractor_total_on_nonempty_results "BTC-USD" "Bitcoin BTC" btcRange midSnips (by decide)

/-- C7 counterexample: the snippet text `.%` contains no numeric match,
yet `changePercent` is `NaN` (the percent pattern captures `.`, parsed
without an `isNaN` guard), not `0` as the claim asserts; price still
degrades to the range midpoint. -/
theorem extractor_no_numbers_changePercent_counterexample :
    scanNums (combineText dotSnip) = [] ∧
    (extractCore (combineText dotSnip) btcRange).changePercent = none ∧
    (extractCore (combineText dotSnip) btcRange).price = qMid btcRange := by
  decide

/-- C7 (amended): on a snippet set with no numeric matches the extractor
returns `price` = range midpoint, `high` = price × 1.01 and
`low` = price × 0.99; `changePercent` is `0` when the percent pattern also
has no match, and `NaN` when a digit-free token (such as `.`) precedes a
percent sign. -/
theorem extractor_no_numbers_defaults :
    ∀ (text : List Char) (range : PriceRange), scanNums text = [] →
      (extractCore text range).price = qMid range ∧
      (extractCore text range).high = qMul (qMid range) (qq 101 100) ∧
      (extractCore text range).low = qMul (qMid range) (qq 99 100) ∧
      (extractCore text range).changePercent =
        (if findChange text = none then some qZero else none) := by
  intro text range h
  have hdc := scanNums_nil_no_dc text h
  have hcand : candidates text range = [] := by
    unfold candidates
    rw [h]
    rfl
  have hprice : resolvedPrice text range = qMid range :=
    resolvedPrice_of_empty text range hcand
  have hhigh : resolvedHigh text range = qMul (resolvedPrice text range) (qq 101 100) := by
    unfold resolvedHigh
    rw [findLabel_none highLabel text hdc]
    rfl
  have hlow : resolvedLow text range = qMul (resolvedPrice text range) (qq 99 100) := by
    unfold resolvedLow
    rw [findLabel_none lowLabel text hdc]
    rfl
  have hch : resolvedChange text = (if findChange text = none then some qZero else none) := by
    cases hc : findChange text with
    | none => simp [resolvedChange, hc]
    | some g =>
        have hnd : ∀ c ∈ text, c.isDigit = false := by
          intro c hcm
          have h2 := hdc c hcm
          unfold isDC at h2
          exact (Bool.or_eq_false_iff.mp h2).1
        have hpn := findChange_parse_none text hnd g hc
        simp [resolvedChange, hc, hpn]
  refine ⟨hprice, ?_, ?_, hch⟩
  · show resolvedHigh text range = _
    rw [hhigh, hprice]
  · show resolvedLow text range = _
    rw [hlow, hprice]

/-- C7 witness: the amended theorem applied to a digit-free snippet set. -/
theorem extractor_no_numbers_defaults_witness :
    (extractCore (combineText plainSnip) btcRange).price = qMid btcRange ∧
    (extractCore (combineText plainSnip) btcRange).high = qMul (qMid btcRange) (qq 101 100) ∧
    (extractCore (combineText plainSnip) btcRange).low = qMul (qMid btcRange) (qq 99 100) ∧
    (extractCore (combineText plainSnip) btcRange).changePercent =
      (if findChange (combineText plainSnip) = none then some qZero else none) :=
  extractor_no_numbers_defaults (combineText plainSnip) btcRange (by decide)

/-- C10: for every snippet text and every range with `0 < min ≤ max`, the
extraction satisfies `low < price < high` (and `price > 0`): an extracted
high is accepted only strictly above the resolved price, an extracted low
only strictly below it, and the synthesized `price × 1.01` / `price × 0.99`
fallbacks preserve the strict ordering because the resolved price is
positive. -/
theorem extractor_low_price_high_ordering :
    ∀ (text : List Char) (range : PriceRange),
      qLt qZero range.min = true → qLe range.min range.max = true →
      0 < toRat (extractCore text range).price ∧
      toRat (extractCore text range).low < toRat (extractCore text range).price ∧
      toRat (extractCore text range).price < toRat (extractCore text range).high := by
  intro text range h1 h2
  have hp : 0 < toRat (resolvedPrice text range) := resolvedPrice_pos text range h1 h2
  exact ⟨hp, resolvedLow_lt text range hp, resolvedHigh_gt text range hp⟩

/-- C4 counterexample: with no prior stored value (empty store), an
implausible live Bitcoin price of 10 is replaced by the static default
96500 — not by the range midpoint 100000 the claim prescribes — and the
record proceeds into the response. -/
theorem implausible_replacement_counterexample :
    validatePrice "BTC" (qInt 10) = qInt 96500 ∧
    implausible (qInt 96500) (qInt 10) = true ∧
    (rangeFor "BTC-USD").map qMid = some (qq 200000 2) ∧
    qEq (qInt 96500) (qq 200000 2) = false ∧
    ((resolvePrices (some [⟨"BTC-USD", some "Bitcoin", some (qInt 10), none, none, none, none⟩])
        [] 0 (fun _ => false)).1.head?.map (fun e => e.price)) = some (qInt 96500) := by
  decide

/-- C4 (amended): a live quote whose price is implausible against the
configured default (≤ 0, below half of it, or above double it) is not
discarded: its price is replaced by the static default price for that
symbol — regardless of any prior stored value or the range midpoint — and
the record, now carrying a positive price, proceeds through the
pipeline. -/
theorem implausible_price_replaced_by_default :
    ∀ (sym : String) (d : DefaultPrice) (p0 : QQ),
      DEFAULT_PRICES.lookup sym = some d → implausible d.price p0 = true →
      validatePrice sym p0 = d.price ∧ 0 < toRat d.price := by
  intro sym d p0 hd himp
  refine ⟨?_, DEFAULT_PRICES_price_pos sym d hd⟩
  unfold validatePrice
  rw [hd]
  show (if implausible d.price p0 then d.price else p0) = d.price
  rw [if_pos himp]

/-- C4 witness: the amended theorem at the Bitcoin default and price 10. -/
theorem implausible_price_replaced_by_default_witness :
    validatePrice "BTC" (qInt 10) = qInt 96500 ∧ 0 < toRat (qInt 96500) :=
  implausible_price_replaced_by_default "BTC"
    ⟨qInt 96500, qq 125 100, qInt 97200, qInt 95500⟩ (qInt 10) (by decide) (by decide)

/-- C5 counterexample: for SILVER the reference (default price 33.25) has
half 16.625, so a candidate exactly at `range.min = 15` is classified
implausible, contradicting the claim that a price at `range.min` is always
plausible. -/
theorem plausibility_range_min_counterexample :
    (DEFAULT_PRICES.lookup "SILVER").map (fun d => d.price) = some (qq 3325 100) ∧
    (rangeFor "SI=F").map (fun r => r.min) = some (qInt 15) ∧
    implausible (qq 3325 100) (qInt 15) = true := by
  decide

/-- C5 (amended): the check classifies a candidate implausible exactly when
it is ≤ 0, strictly below half the reference, or strictly above double it;
for every configured symbol a price at `range.max` or one cent above it is
plausible and prices at 0.4× / 2.1× the reference are implausible, but a
price at `range.min` (or one cent below) is plausible only for SP500,
GOLD, BTC and USDKZT — for SILVER and ETH the range minimum lies below
half the default reference and is already implausible. -/
theorem plausibility_characterization :
    (∀ ref p : QQ, implausible ref p = true ↔
      (toRat p ≤ 0 ∨ toRat p < toRat ref * (1 / 2) ∨ toRat ref * 2 < toRat p)) ∧
    symbolPairs.all (checkPair (fun ref r =>
      !( implausible ref r.max) && !( implausible ref (qAdd r.max (qq 1 100))) &&
      implausible ref (qMul ref (qq 4 10)) && implausible ref (qMul ref (qq 21 10)))) = true ∧
    ([("SP500", "^GSPC"), ("GOLD", "GC=F"), ("BTC", "BTC-USD"), ("USDKZT", "KZT=X")].all
      (checkPair (fun ref r =>
        !( implausible ref r.min) && !( implausible ref (qSub r.min (qq 1 100)))))) = true ∧
    ([("SILVER", "SI=F"), ("ETH", "ETH-USD")].all
      (checkPair (fun ref r =>
        implausible ref r.min && implausible ref (qSub r.min (qq 1 100))))) = true := by
  refine ⟨?_, by decide, by decide, by decide⟩
  intro ref p
  unfold implausible
  simp only [Bool.or_eq_true, qLe_iff, qLt_iff, toRat_qZero, toRat_qMul, toRat_half,
    toRat_two]
  tauto

/-- C8 helper: tickers outside the mapping chain pass through unchanged. -/
theorem normalize_passthrough (x : String) (h1 : ¬x = "^GSPC") (h2 : ¬x = "GC=F")
    (h3 : ¬x = "SI=F") (h4 : ¬x = "BTC-USD") (h5 : ¬x = "ETH-USD") (h6 : ¬x = "KZT=X") :
    normalize x = (x, x) := by
  unfold normalize normalizePair
  rw [if_neg h1, if_neg h2, if_neg h3, if_neg h4, if_neg h5, if_neg h6]

/-- C8 counterexample: re-normalizing the canonical symbol produced for
`^GSPC` does not reproduce the same pair — the display name collapses to
the canonical symbol (`("SP500", "SP500")` instead of
`("SP500", "S&P 500")`). -/
theorem normalize_display_idempotence_counterexample :
    normalize "^GSPC" = ("SP500", "S&P 500") ∧
    normalize ((normalize "^GSPC").1) ≠ normalize "^GSPC" := by
  decide

/-- C8 (amended): the canonical-symbol component of the normalizer is
idempotent and unknown tickers pass through unchanged, but the full
(canonicalSymbol, displayName) pair is not preserved: re-normalizing a
canonical output yields the symbol itself as display name (each canonical
output is a pass-through fixed point, for example
`normalize "SP500" = ("SP500", "SP500")`). -/
theorem normalize_canonical_idempotent :
    (∀ x : String,
      (normalize (normalize x).1).1 = (normalize x).1 ∧
      (x ∉ (["^GSPC", "GC=F", "SI=F", "BTC-USD", "ETH-USD", "KZT=X"] : List String) →
        normalize x = (x, x))) ∧
    (normalize "SP500" = ("SP500", "SP500") ∧ normalize "GOLD" = ("GOLD", "GOLD") ∧
     normalize "SILVER" = ("SILVER", "SILVER") ∧ normalize "BTC" = ("BTC", "BTC") ∧
     normalize "ETH" = ("ETH", "ETH") ∧ normalize "USDKZT" = ("USDKZT", "USDKZT")) := by
  constructor
  · intro x
    by_cases h1 : x = "^GSPC"
    · subst h1
      exact ⟨by decide, fun hx => absurd (by decide) hx⟩
    by_cases h2 : x = "GC=F"
    · subst h2
      exact ⟨by decide, fun hx => absurd (by decide) hx⟩
    by_cases h3 : x = "SI=F"
    · subst h3
      exact ⟨by decide, fun hx => absurd (by decide) hx⟩
    by_cases h4 : x = "BTC-USD"
    · subst h4
      exact ⟨by decide, fun hx => absurd (by decide) hx⟩
    by_cases h5 : x = "ETH-USD"
    · subst h5
      exact ⟨by decide, fun hx => absurd (by decide) hx⟩
    by_cases h6 : x = "KZT=X"
    · subst h6
      exact ⟨by decide, fun hx => absurd (by decide) hx⟩
    have hpass := normalize_passthrough x h1 h2 h3 h4 h5 h6
    refine ⟨?_, fun _ => hpass⟩
    rw [hpass]
    show (normalize x).1 = x
    rw [hpass]
  · exact ⟨by decide, by decide, by decide, by decide, by decide, by decide⟩

/-- C8 witness: the amended theorem at an unmapped ticker. -/
theorem normalize_canonical_idempotent_witness :
    normalize "DOGE" = ("DOGE", "DOGE") :=
  (normalize_canonical_idempotent.1 "DOGE").2 (by decide)

/-- C10 witness: the ordering theorem applied to the Bitcoin scenario. -/
theorem extractor_low_price_high_ordering_witness :
    0 < toRat (extractCore (combineText midSnips) btcRange).price ∧
    toRat (extractCore (combineText midSnips) btcRange).low <
      toRat (extractCore (combineText midSnips) btcRange).price ∧
    toRat (extractCore (combineText midSnips) btcRange).price <
      toRat (extractCore (combineText midSnips) btcRange).high :=
  extractor_low_price_high_ordering (combineText midSnips) btcRange (by decide) (by decide)

end FinScope
